import Mathlib

set_option autoImplicit false

/-
Verification of the orchestration core of opennmt/runner.py: gradient
accumulation in Runner.train, the batch-size binary search in
auto_tune_batch_size, the batch-size finalization in
Runner.finalize_training_parameters, the accumulation-count derivation in
count_batch_accum, checkpoint resolution in Runner.train, the output-stream
lifecycle of Runner.infer and Runner.score, and the order-restoring writer
used by Runner.infer.
-/

/-- Embeds count_batch_accum from runner.py: given the current batch size, the
requested effective (target) batch size and the number of replicas, returns
int(math.ceil(target_batch_size / (batch_size * num_replicas))). The Python
float arithmetic is modelled as exact arithmetic in the rationals, with the
ceiling taken there. -/
def count_batch_accum (batch_size target_batch_size num_replicas : Nat) : Int :=
  ⌈(target_batch_size : ℚ) / ((batch_size : ℚ) * (num_replicas : ℚ))⌉

/-- Outcome of the batch-size part of Runner.finalize_training_parameters:
either the ValueError raised for the examples batch type, or a call to
auto_tune_batch_size with the computed max_batch_size, or the explicitly
configured batch size kept unchanged (no autotuning). -/
inductive FinalizeOutcome where
  | error : FinalizeOutcome
  | autotune : Nat → FinalizeOutcome
  | keep : Nat → FinalizeOutcome
deriving DecidableEq

/-- Embeds the batch-size logic of Runner.finalize_training_parameters
(runner.py lines 166-180): when batch_size is None or 0, the examples batch
type raises a ValueError, otherwise auto_tune_batch_size is invoked with
max_batch_size = 16384 capped by effective_batch_size when the latter is set;
an explicitly set nonzero batch size is kept as is. -/
def finalize_training_batch_size (batch_size : Option Nat) (batch_type : String)
    (effective_batch_size : Option Nat) : FinalizeOutcome :=
  if batch_size = none ∨ batch_size = some 0 then
    if batch_type = "examples" then
      FinalizeOutcome.error
    else
      FinalizeOutcome.autotune
        (match effective_batch_size with
         | none => 16384
         | some e => min 16384 e)
  else
    FinalizeOutcome.keep (batch_size.getD 0)

/-- Embeds the checkpoint-path resolution at the start of Runner.train
(runner.py lines 328-331), which runs before the step loop: an explicit
directory path is resolved to its latest record; an absent path falls back to
the latest record known to the checkpoint manager of the model directory, when
one exists. The returned value is the path passed to checkpoint.restore, or
none when no restore happens. -/
def train_restore_path {α : Type} (checkpoint_path : Option α) (is_dir : α → Bool)
    (latest_checkpoint : α → Option α) (manager_latest : Option α) : Option α :=
  match checkpoint_path with
  | some p => if is_dir p then latest_checkpoint p else some p
  | none => manager_latest

/-- Embeds one iteration of the while loop of auto_tune_batch_size
(runner.py lines 700-723) on the state (min_batch_size, max_batch_size):
the candidate is (max + min) // 2 (Python floor division, hence Int.fdiv);
a trial with exit code zero sets min to the candidate, any other exit code
sets max to the candidate minus one. -/
def tuneStep (feasible : Int → Bool) (st : Int × Int) : Int × Int :=
  let batch_size := Int.fdiv (st.2 + st.1) 2
  if feasible batch_size then (batch_size, st.2) else (st.1, batch_size - 1)

/-- Embeds the search loop of auto_tune_batch_size with explicit fuel: while
max - min > min_range, run one tuneStep; on exit return min together with the
number of iterations executed. Returns none only when the fuel is exhausted
while the loop guard still holds. -/
def autoTuneLoop (feasible : Int → Bool) (min_range : Int) :
    Nat → Int → Int → Option (Int × Nat)
  | 0, lo, hi => if min_range < hi - lo then none else some (lo, 0)
  | fuel + 1, lo, hi =>
    if min_range < hi - lo then
      let batch_size := Int.fdiv (hi + lo) 2
      match
        (if feasible batch_size then autoTuneLoop feasible min_range fuel batch_size hi
         else autoTuneLoop feasible min_range fuel lo (batch_size - 1)) with
      | none => none
      | some (v, n) => some (v, n + 1)
    else some (lo, 0)

/-- State of the gradient-accumulation training loop of Runner.train, projected
to one trainable variable: acc is the value of the accumulator buffer (the
tf.Variable in the gradients list, zero-initialized), and applied records, in
order, the accumulated values handed to optimizer.apply_gradients. -/
structure TrainState where
  acc : Int
  applied : List Int
deriving DecidableEq

/-- Embeds the step loop of Runner.train (runner.py lines 344-347) for one
trainable variable: at micro-step i the step gradient g is added into the
accumulator (the body of step), and when i == 0 or (i + 1) % accum_count == 0
the accumulated value is applied to the optimizer and the buffer is assigned
zero (the body of apply_gradients). The first argument of the recursion is the
enumeration index i, the second the current buffer value. -/
def trainLoopAux (accum_count : Nat) : Nat → Int → List Int → TrainState
  | _, acc, [] => { acc := acc, applied := [] }
  | i, acc, g :: rest =>
    let acc2 := acc + g
    if i = 0 ∨ (i + 1) % accum_count = 0 then
      let st := trainLoopAux accum_count (i + 1) 0 rest
      { acc := st.acc, applied := acc2 :: st.applied }
    else
      trainLoopAux accum_count (i + 1) acc2 rest

/-- Runs the training loop of Runner.train from the initial state: index 0 and
a zero accumulator buffer, over the given sequence of per-step gradients. -/
def trainLoop (accum_count : Nat) (gs : List Int) : TrainState :=
  trainLoopAux accum_count 0 0 gs

/-- Modelled from the spec: the mutable state of OrderRestorer, which is
implemented in opennmt/utils/misc.py and is not under src/. It holds the
integer next_expected, the PendingBuffer of items received ahead of time, and
the sequence of items released to the sink, in release order. Items are pairs
of an index and a payload. -/
structure OrderRestorer (α : Type) where
  next_expected : Nat
  buffer : List (Nat × α)
  sink : List (Nat × α)
deriving DecidableEq

/-- Modelled from the spec: removal of the entry with the given index from the
PendingBuffer, returning its payload and the remaining buffer, or none when
the index is absent. -/
def extractKey {α : Type} (k : Nat) : List (Nat × α) → Option (α × List (Nat × α))
  | [] => none
  | p :: rest =>
    if p.1 = k then some (p.2, rest)
    else
      match extractKey k rest with
      | none => none
      | some (a, rest2) => some (a, p :: rest2)

/-- Modelled from the spec: drain the PendingBuffer for as long as it contains
next_expected, repeatedly releasing the entry to the sink and incrementing
next_expected. The fuel bounds the number of drain rounds; push supplies the
buffer size, which always suffices since every round removes one entry. -/
def drain {α : Type} : Nat → OrderRestorer α → OrderRestorer α
  | 0, st => st
  | fuel + 1, st =>
    match extractKey st.next_expected st.buffer with
    | none => st
    | some (a, rest) =>
        drain fuel
          { next_expected := st.next_expected + 1,
            buffer := rest,
            sink := st.sink ++ [(st.next_expected, a)] }

/-- Modelled from the spec: OrderRestorer.push. An item whose index equals
next_expected is released to the sink immediately, next_expected is
incremented and the PendingBuffer is drained; an item with a larger index is
buffered; an index below next_expected (already released) or already present
in the buffer is a DuplicateIndexError, modelled as none. -/
def OrderRestorer.push {α : Type} (st : OrderRestorer α) (item : Nat × α) :
    Option (OrderRestorer α) :=
  if item.1 < st.next_expected then none
  else if item.1 = st.next_expected then
    some (drain st.buffer.length
      { next_expected := st.next_expected + 1,
        buffer := st.buffer,
        sink := st.sink ++ [item] })
  else if item.1 ∈ st.buffer.map Prod.fst then none
  else some { st with buffer := st.buffer ++ [item] }

/-- Pushes a whole stream of items through an OrderRestorer that starts at
next_expected = 0 with an empty PendingBuffer and an empty sink, as
Runner.infer does for indexed predictions; none signals a
DuplicateIndexError on some push. -/
def pushAll {α : Type} (items : List (Nat × α)) : Option (OrderRestorer α) :=
  List.foldlM OrderRestorer.push
    { next_expected := 0, buffer := [], sink := [] } items

/-- Invariant tying an order-restorer state to the items pushed so far: the
sink holds, in index order, exactly the items with the indices below
next_expected, the PendingBuffer holds the remaining pushed items, and every
buffered index lies strictly above next_expected. -/
def RestorerInv {α : Type} (processed : List (Nat × α)) (st : OrderRestorer α) : Prop :=
  st.sink.map Prod.fst = List.range st.next_expected ∧
  (st.sink ++ st.buffer).Perm processed ∧
  ∀ p ∈ st.buffer, st.next_expected < p.1

/-- Scratch files created by auto_tune_batch_size: the transient trial
configuration file batch_size_autotuner.yml, and the session configuration
descriptor batch_size_autotuner.proto written only when gpu_memory_fraction
is below one. -/
inductive ScratchFile where
  | config : ScratchFile
  | sessionConfig : ScratchFile
deriving DecidableEq

/-- Embeds the cleanup code at the end of auto_tune_batch_size (runner.py
lines 727-730): os.remove(config_path), then, when the session configuration
file was created, os.remove(session_config_path). A deletion for which
remove_ok is false raises OSError, which propagates (there is no handler);
the list records the files actually removed. -/
def tuneCleanup (remove_ok : ScratchFile → Bool) (has_session_config : Bool)
    (v : Int) : Except Unit Int × List ScratchFile :=
  if remove_ok ScratchFile.config then
    if has_session_config then
      if remove_ok ScratchFile.sessionConfig then
        (Except.ok v, [ScratchFile.config, ScratchFile.sessionConfig])
      else
        (Except.error (), [ScratchFile.config])
    else
      (Except.ok v, [ScratchFile.config])
  else
    (Except.error (), [])

/-- Embeds the whole tail of auto_tune_batch_size: the binary search loop
followed by the cleanup code. A trial is a subprocess launch whose judgement
may itself raise (Except.error, for example a failed Popen); such an
exception escapes the function immediately and no cleanup code runs, exactly
as in the source, which has no try or finally around the loop. On normal loop
exit the cleanup code of tuneCleanup runs. The result pairs the outcome with
the list of scratch files removed. -/
def autoTuneRun (trial : Int → Except Unit Bool) (remove_ok : ScratchFile → Bool)
    (has_session_config : Bool) (min_range : Int) :
    Nat → Int → Int → Except Unit Int × List ScratchFile
  | 0, lo, hi =>
    if min_range < hi - lo then (Except.error (), [])
    else tuneCleanup remove_ok has_session_config lo
  | fuel + 1, lo, hi =>
    if min_range < hi - lo then
      let batch_size := Int.fdiv (hi + lo) 2
      match trial batch_size with
      | Except.error e => (Except.error e, [])
      | Except.ok true =>
          autoTuneRun trial remove_ok has_session_config min_range fuel batch_size hi
      | Except.ok false =>
          autoTuneRun trial remove_ok has_session_config min_range fuel lo (batch_size - 1)
    else tuneCleanup remove_ok has_session_config lo

/-- Embeds the processing loop shared by Runner.infer (lines 474-495) and
Runner.score (lines 591-610): batches are consumed one at a time and a batch
whose processing raises aborts the loop with that error. -/
def streamLoopBody {β : Type} (process : β → Except Unit Unit) :
    List β → Except Unit Unit
  | [] => Except.ok ()
  | b :: rest =>
    match process b with
    | Except.error e => Except.error e
    | Except.ok _ => streamLoopBody process rest

/-- Embeds the output-stream lifecycle of Runner.infer and Runner.score: when
an output file is given a stream is opened for writing before the loop, and
stream.close() is executed only by the statement that follows the loop, so
only on normal loop exit. The boolean component records whether the opened
stream was closed by the end of the call. -/
def runWithOutputStream {β : Type} (output_file : Bool)
    (process : β → Except Unit Unit) (batches : List β) :
    Except Unit Unit × Bool :=
  match streamLoopBody process batches with
  | Except.ok u => (Except.ok u, output_file)
  | Except.error e => (Except.error e, false)

/-- Ceiling of a quotient of positive naturals, taken in the rationals, equals
the usual ceiling-division formula on naturals. -/
theorem ceil_cast_div_eq (t m : Nat) (ht : 1 ≤ t) (hm : 1 ≤ m) :
    ⌈(t : ℚ) / (m : ℚ)⌉ = ((t + m - 1) / m : Nat) := by
  have hm0 : (0 : ℚ) < (m : ℚ) := by exact_mod_cast hm
  have hdm := Nat.div_add_mod (t + m - 1) m
  have hmod : (t + m - 1) % m < m := Nat.mod_lt _ (by omega)
  have hA : t ≤ m * ((t + m - 1) / m) := by omega
  have hB : ((t + m - 1) / m) * m ≤ t + m - 1 := Nat.div_mul_le_self _ _
  set q : ℕ := (t + m - 1) / m with hq
  have hBq : (q : ℚ) * (m : ℚ) ≤ (t : ℚ) + (m : ℚ) - 1 := by
    have h1 : ((q * m : ℕ) : ℚ) ≤ ((t + m - 1 : ℕ) : ℚ) := by exact_mod_cast hB
    have h2 : ((t + m - 1 : ℕ) : ℚ) = (t : ℚ) + (m : ℚ) - 1 := by
      have h3 : 1 ≤ t + m := by omega
      push_cast [Nat.cast_sub h3]
      ring
    rw [h2] at h1
    push_cast at h1
    exact h1
  have hAq : (t : ℚ) ≤ (m : ℚ) * (q : ℚ) := by exact_mod_cast hA
  rw [Int.ceil_eq_iff]
  constructor
  · rw [lt_div_iff hm0]
    push_cast
    nlinarith [hBq, hm0]
  · rw [div_le_iff hm0]
    push_cast
    rw [mul_comm]
    exact hAq

/-- C5: accumulation-count derivation. For positive batch_size,
effective_batch_size and num_replicas, count_batch_accum equals the exact
ceiling of effective_batch_size / (batch_size * num_replicas), given here by
the natural-number ceiling-division formula, and is at least one; the
configuration effective_batch_size=4096, batch_size=512, num_replicas=2
yields 4. -/
theorem count_batch_accum_spec (batch_size target_batch_size num_replicas : Nat)
    (hb : 1 ≤ batch_size) (ht : 1 ≤ target_batch_size) (hr : 1 ≤ num_replicas) :
    count_batch_accum batch_size target_batch_size num_replicas =
      ((target_batch_size + batch_size * num_replicas - 1) /
        (batch_size * num_replicas) : Nat) ∧
    1 ≤ count_batch_accum batch_size target_batch_size num_replicas ∧
    count_batch_accum 512 4096 2 = 4 := by
  have hm : 1 ≤ batch_size * num_replicas := by
    calc 1 = 1 * 1 := by norm_num
    _ ≤ batch_size * num_replicas := Nat.mul_le_mul hb hr
  have key : count_batch_accum batch_size target_batch_size num_replicas =
      ((target_batch_size + batch_size * num_replicas - 1) /
        (batch_size * num_replicas) : Nat) := by
    unfold count_batch_accum
    rw [show ((batch_size : ℚ) * (num_replicas : ℚ)) =
        ((batch_size * num_replicas : Nat) : ℚ) by push_cast; ring]
    exact ceil_cast_div_eq target_batch_size (batch_size * num_replicas) ht hm
  refine ⟨key, ?_, by norm_num [count_batch_accum]⟩
  rw [key]
  have h1 : 1 ≤ (target_batch_size + batch_size * num_replicas - 1) /
      (batch_size * num_replicas) :=
    (Nat.one_le_div_iff (by omega)).mpr (by omega)
  exact_mod_cast h1

/-- Witness for C5 at batch_size=512, effective_batch_size=4096,
num_replicas=2. -/
theorem count_batch_accum_spec_witness :
    count_batch_accum 512 4096 2 = ((4096 + 512 * 2 - 1) / (512 * 2) : Nat) ∧
    1 ≤ count_batch_accum 512 4096 2 ∧
    count_batch_accum 512 4096 2 = 4 :=
  count_batch_accum_spec 512 4096 2 (by decide) (by decide) (by decide)

/-- Facts about one iteration of the batch-size binary search entered with an
interval of width at least two: both bounds stay inside the old interval, the
order of the bounds is preserved, and the width strictly shrinks. -/
theorem tuneStep_bounds (f : Int → Bool) (lo hi : Int) (h2 : 2 ≤ hi - lo) :
    lo ≤ (tuneStep f (lo, hi)).1 ∧
    (tuneStep f (lo, hi)).1 ≤ (tuneStep f (lo, hi)).2 ∧
    (tuneStep f (lo, hi)).2 ≤ hi ∧
    (tuneStep f (lo, hi)).2 - (tuneStep f (lo, hi)).1 < hi - lo := by
  have hb : Int.fdiv (hi + lo) 2 = (hi + lo) / 2 := Int.fdiv_eq_ediv _ (by norm_num)
  cases hf : f (Int.fdiv (hi + lo) 2) <;> simp [tuneStep, hf] <;> omega

/-- C4 counterexample: with precision 0 the claimed invariant fails. From the
state low=5, high=6 the loop guard high - low > 0 holds, yet an iteration
whose trial succeeds leaves the interval unchanged (no strict shrink), and an
iteration whose trial fails produces low=5, high=4, violating low ≤ high. -/
theorem batch_size_search_invariant_precision_zero_fails :
    (0 : Int) < 6 - 5 ∧ (5 : Int) ≤ 6 ∧
    tuneStep (fun _ => true) (5, 6) = (5, 6) ∧
    tuneStep (fun _ => false) (5, 6) = (5, 4) ∧
    ¬ (5 : Int) ≤ 4 := by decide

/-- C4 amended: for every precision of at least one, every iteration of the
batch-size binary search entered from a state with low ≤ high and the loop
guard high - low > precision holding preserves low ≤ high and strictly
shrinks high - low. -/
theorem batch_size_search_invariant (f : Int → Bool) (p lo hi : Int)
    (hp : 1 ≤ p) (hlh : lo ≤ hi) (hguard : p < hi - lo) :
    (tuneStep f (lo, hi)).1 ≤ (tuneStep f (lo, hi)).2 ∧
    (tuneStep f (lo, hi)).2 - (tuneStep f (lo, hi)).1 < hi - lo := by
  have h := tuneStep_bounds f lo hi (by omega)
  exact ⟨h.2.1, h.2.2.2⟩

/-- Witness for the amended C4 at precision 256 from the initial interval of
the autotuner. -/
theorem batch_size_search_invariant_witness :
    (tuneStep (fun _ => true) (1024, 16384)).1 ≤
      (tuneStep (fun _ => true) (1024, 16384)).2 ∧
    (tuneStep (fun _ => true) (1024, 16384)).2 -
      (tuneStep (fun _ => true) (1024, 16384)).1 < 16384 - 1024 :=
  batch_size_search_invariant (fun _ => true) 256 1024 16384
    (by decide) (by decide) (by decide)

/-- Characterization of the fueled search loop: a run that returns a value
after n iterations is exactly n applications of tuneStep from the initial
state, the loop guard held before each of them, the guard fails at the final
state, and the returned value is the low bound of the final state. -/
theorem autoTuneLoop_iterates (f : Int → Bool) (p : Int) :
    ∀ (fuel : Nat) (lo hi v : Int) (n : Nat),
      autoTuneLoop f p fuel lo hi = some (v, n) →
      v = ((tuneStep f)^[n] (lo, hi)).1 ∧
      ¬ p < ((tuneStep f)^[n] (lo, hi)).2 - ((tuneStep f)^[n] (lo, hi)).1 ∧
      ∀ m, m < n → p < ((tuneStep f)^[m] (lo, hi)).2 - ((tuneStep f)^[m] (lo, hi)).1 := by
  intro fuel
  induction fuel with
  | zero =>
    intro lo hi v n h
    by_cases hg : p < hi - lo
    · simp [autoTuneLoop, hg] at h
    · simp [autoTuneLoop, hg] at h
      obtain ⟨hv, hn⟩ := h
      subst hv
      subst hn
      exact ⟨rfl, hg, by omega⟩
  | succ fuel ih =>
    intro lo hi v n h
    by_cases hg : p < hi - lo
    · cases hf : f (Int.fdiv (hi + lo) 2)
      · simp only [autoTuneLoop, hg, if_true, hf, Bool.false_eq_true, if_false] at h
        cases hrec : autoTuneLoop f p fuel lo (Int.fdiv (hi + lo) 2 - 1) with
        | none => rw [hrec] at h; simp at h
        | some pr =>
          rw [hrec] at h
          simp only [Option.some.injEq] at h
          have hv : pr.1 = v := by
            have := congrArg Prod.fst h
            simpa using this
          have hn : pr.2 + 1 = n := by
            have := congrArg Prod.snd h
            simpa using this
          have hprn := ih lo (Int.fdiv (hi + lo) 2 - 1) pr.1 pr.2 (by rw [hrec])
          have hiter : tuneStep f (lo, hi) = (lo, Int.fdiv (hi + lo) 2 - 1) := by
            simp [tuneStep, hf]
          cases n with
          | zero => omega
          | succ n2 =>
            have hn2 : pr.2 = n2 := by omega
            have hvv : v = pr.1 := by omega
            subst hvv
            refine ⟨?_, ?_, ?_⟩
            · rw [Function.iterate_succ_apply, hiter]
              rw [← hn2]
              exact hprn.1
            · rw [Function.iterate_succ_apply, hiter, ← hn2]
              exact hprn.2.1
            · intro m hm
              cases m with
              | zero => simpa using hg
              | succ m2 =>
                rw [Function.iterate_succ_apply, hiter]
                exact hprn.2.2 m2 (by omega)
      · simp only [autoTuneLoop, hg, if_true, hf] at h
        cases hrec : autoTuneLoop f p fuel (Int.fdiv (hi + lo) 2) hi with
        | none => rw [hrec] at h; simp at h
        | some pr =>
          rw [hrec] at h
          simp only [Option.some.injEq] at h
          have hv : pr.1 = v := by
            have := congrArg Prod.fst h
            simpa using this
          have hn : pr.2 + 1 = n := by
            have := congrArg Prod.snd h
            simpa using this
          have hprn := ih (Int.fdiv (hi + lo) 2) hi pr.1 pr.2 (by rw [hrec])
          have hiter : tuneStep f (lo, hi) = (Int.fdiv (hi + lo) 2, hi) := by
            simp [tuneStep, hf]
          cases n with
          | zero => omega
          | succ n2 =>
            have hn2 : pr.2 = n2 := by omega
            have hvv : v = pr.1 := by omega
            subst hvv
            refine ⟨?_, ?_, ?_⟩
            · rw [Function.iterate_succ_apply, hiter, ← hn2]
              exact hprn.1
            · rw [Function.iterate_succ_apply, hiter, ← hn2]
              exact hprn.2.1
            · intro m hm
              cases m with
              | zero => simpa using hg
              | succ m2 =>
                rw [Function.iterate_succ_apply, hiter]
                exact hprn.2.2 m2 (by omega)
    · simp [autoTuneLoop, hg] at h
      obtain ⟨hv, hn⟩ := h
      subst hv
      subst hn
      exact ⟨rfl, hg, by omega⟩

/-- C2: batch-size binary search correctness. Any returning run of the search
loop is exactly n iterations of tuneStep (candidate = floor((low+high)/2),
low = candidate on a zero exit code, high = candidate - 1 otherwise) from the
initial state, with the guard high - low > precision holding before every
iteration and failing at the final state, whose low bound is returned. With
min=1024, max=16384, precision=256 and every candidate up to 9000 feasible,
the search returns 8943, which lies in [8744, 9000], after 6 iterations,
which is at most ceil(log2((16384-1024)/256)). -/
theorem auto_tune_batch_size_search (f : Int → Bool) (p : Int) (fuel : Nat)
    (lo hi v : Int) (n : Nat)
    (h : autoTuneLoop f p fuel lo hi = some (v, n)) :
    (v = ((tuneStep f)^[n] (lo, hi)).1 ∧
     ¬ p < ((tuneStep f)^[n] (lo, hi)).2 - ((tuneStep f)^[n] (lo, hi)).1 ∧
     ∀ m, m < n →
       p < ((tuneStep f)^[m] (lo, hi)).2 - ((tuneStep f)^[m] (lo, hi)).1) ∧
    (autoTuneLoop (fun b => decide (b ≤ 9000)) 256 16 1024 16384 = some (8943, 6) ∧
     (8744 : Int) ≤ 8943 ∧ (8943 : Int) ≤ 9000 ∧
     6 ≤ Nat.clog 2 ((16384 - 1024) / 256)) := by
  refine ⟨autoTuneLoop_iterates f p fuel lo hi v n h, by decide, by decide, by decide, ?_⟩
  have h60 : (16384 - 1024) / 256 = 60 := by norm_num
  have h2 : 5 < Nat.clog 2 60 := (Nat.pow_lt_iff_lt_clog (by norm_num)).mp (by norm_num)
  rw [h60]
  omega

/-- Witness for C2 on the convergence scenario of the claim. -/
theorem auto_tune_batch_size_search_witness :
    autoTuneLoop (fun b => decide (b ≤ 9000)) 256 16 1024 16384 = some (8943, 6) ∧
    (8943 : Int) = ((tuneStep (fun b => decide (b ≤ 9000)))^[6] (1024, 16384)).1 :=
  ⟨by decide,
   (auto_tune_batch_size_search (fun b => decide (b ≤ 9000)) 256 16 1024 16384
      8943 6 (by decide)).1.1⟩

/-- Bound on the result of the search loop: with a precision of at least one
and a well-formed initial interval, any returned value lies inside the
initial interval. -/
theorem autoTuneLoop_result_bounds (f : Int → Bool) (p : Int) (hp : 1 ≤ p) :
    ∀ (fuel : Nat) (lo hi v : Int) (n : Nat),
      lo ≤ hi → autoTuneLoop f p fuel lo hi = some (v, n) → lo ≤ v ∧ v ≤ hi := by
  intro fuel
  induction fuel with
  | zero =>
    intro lo hi v n hlh h
    by_cases hg : p < hi - lo
    · simp [autoTuneLoop, hg] at h
    · simp [autoTuneLoop, hg] at h
      obtain ⟨hv, hn⟩ := h
      subst hv
      exact ⟨le_refl _, hlh⟩
  | succ fuel ih =>
    intro lo hi v n hlh h
    by_cases hg : p < hi - lo
    · have hb := tuneStep_bounds f lo hi (by omega)
      cases hf : f (Int.fdiv (hi + lo) 2)
      · have hiter : tuneStep f (lo, hi) = (lo, Int.fdiv (hi + lo) 2 - 1) := by
          simp [tuneStep, hf]
        rw [hiter] at hb
        simp only [autoTuneLoop, hg, if_true, hf, Bool.false_eq_true, if_false] at h
        cases hrec : autoTuneLoop f p fuel lo (Int.fdiv (hi + lo) 2 - 1) with
        | none => rw [hrec] at h; simp at h
        | some pr =>
          rw [hrec] at h
          simp only [Option.some.injEq] at h
          have hv : pr.1 = v := by
            have := congrArg Prod.fst h
            simpa using this
          have hih := ih lo (Int.fdiv (hi + lo) 2 - 1) pr.1 pr.2 (by simpa using hb.2.1)
            (by rw [hrec])
          constructor
          · omega
          · have : pr.1 ≤ Int.fdiv (hi + lo) 2 - 1 := hih.2
            have hle : (Int.fdiv (hi + lo) 2 - 1) ≤ hi := by simpa using hb.2.2.1
            omega
      · have hiter : tuneStep f (lo, hi) = (Int.fdiv (hi + lo) 2, hi) := by
          simp [tuneStep, hf]
        rw [hiter] at hb
        simp only [autoTuneLoop, hg, if_true, hf] at h
        cases hrec : autoTuneLoop f p fuel (Int.fdiv (hi + lo) 2) hi with
        | none => rw [hrec] at h; simp at h
        | some pr =>
          rw [hrec] at h
          simp only [Option.some.injEq] at h
          have hv : pr.1 = v := by
            have := congrArg Prod.fst h
            simpa using this
          have hih := ih (Int.fdiv (hi + lo) 2) hi pr.1 pr.2 (by simpa using hb.2.1)
            (by rw [hrec])
          have hlo : lo ≤ Int.fdiv (hi + lo) 2 := by simpa using hb.1
          constructor
          · omega
          · omega
    · simp [autoTuneLoop, hg] at h
      obtain ⟨hv, hn⟩ := h
      subst hv
      exact ⟨le_refl _, hlh⟩

/-- C9 counterexample: with effective_batch_size = 512 the finalization
triggers autotuning with upper bound min(16384, 512) = 512, the search loop
from the default lower bound 1024 exits immediately (512 - 1024 is not above
the precision 256) and returns 1024, which exceeds the configured effective
batch size. -/
theorem autotune_effective_batch_cap_fails :
    finalize_training_batch_size none "tokens" (some 512) =
      FinalizeOutcome.autotune (min 16384 512) ∧
    autoTuneLoop (fun _ => true) 256 1 1024 512 = some (1024, 0) ∧
    ¬ ((1024 : Int) ≤ 512) := by decide

/-- C9 amended: when autotuning is triggered with an effective_batch_size
configured, the upper bound of the search range is
min(16384, effective_batch_size); whenever effective_batch_size is at least
1024 (the default lower search bound, making the initial interval well
formed), any returning run of the search yields a batch size of at most
effective_batch_size. Below 1024 the loop body never runs and the returned
1024 can exceed the effective batch size. -/
theorem autotune_effective_batch_cap (e : Nat) (he : 1024 ≤ e)
    (f : Int → Bool) (fuel : Nat) (v : Int) (n : Nat)
    (h : autoTuneLoop f 256 fuel 1024 ((min 16384 e : Nat) : Int) = some (v, n)) :
    finalize_training_batch_size none "tokens" (some e) =
      FinalizeOutcome.autotune (min 16384 e) ∧ v ≤ (e : Int) := by
  constructor
  · simp [finalize_training_batch_size]
  · have hle : (1024 : Int) ≤ ((min 16384 e : Nat) : Int) := by
      have h1 : 1024 ≤ min 16384 e := le_min (by norm_num) he
      exact_mod_cast h1
    have hb := autoTuneLoop_result_bounds f 256 (by norm_num) fuel 1024
      ((min 16384 e : Nat) : Int) v n hle h
    have h2 : ((min 16384 e : Nat) : Int) ≤ (e : Int) := by
      exact_mod_cast min_le_right 16384 e
    omega

/-- Witness for the amended C9 at effective_batch_size = 4096 with an
always-feasible oracle. -/
theorem autotune_effective_batch_cap_witness :
    finalize_training_batch_size none "tokens" (some 4096) =
      FinalizeOutcome.autotune (min 16384 4096) ∧ (3904 : Int) ≤ (4096 : Nat) :=
  autotune_effective_batch_cap 4096 (by decide) (fun _ => true) 8 3904 4 (by decide)

/-- C6: autotune precondition error. When the training batch size is absent or
zero and the batch type is examples, finalization yields the ValueError
outcome, so no auto_tune_batch_size call (and hence no trial process) ever
happens; and whenever the batch size is explicitly set and positive, the
outcome keeps it unchanged and no autotuning occurs, whatever the batch type
and effective batch size. -/
theorem finalize_autotune_precondition (bs : Option Nat) (e : Option Nat)
    (h : bs = none ∨ bs = some 0) :
    finalize_training_batch_size bs "examples" e = FinalizeOutcome.error ∧
    ∀ (b : Nat), 1 ≤ b → ∀ (bt : String) (e2 : Option Nat),
      finalize_training_batch_size (some b) bt e2 = FinalizeOutcome.keep b := by
  constructor
  · rcases h with h | h <;> subst h <;> simp [finalize_training_batch_size]
  · intro b hb bt e2
    have hb0 : b ≠ 0 := by omega
    simp [finalize_training_batch_size, hb0]

/-- Witness for C6 with an absent batch size and an explicit batch size of
512. -/
theorem finalize_autotune_precondition_witness :
    finalize_training_batch_size none "examples" none = FinalizeOutcome.error ∧
    finalize_training_batch_size (some 512) "examples" none =
      FinalizeOutcome.keep 512 :=
  ⟨(finalize_autotune_precondition none none (Or.inl rfl)).1,
   (finalize_autotune_precondition none none (Or.inl rfl)).2 512 (by decide) "examples" none⟩

/-- C10: automatic resume. When Runner.train is called with no checkpoint path
and the checkpoint manager of the model directory knows a latest record, the
path handed to checkpoint.restore before the step loop is exactly that latest
record: resuming is automatic, not only on an explicit argument. -/
theorem train_restores_latest_automatically {α : Type} (is_dir : α → Bool)
    (latest_checkpoint : α → Option α) (r : α) :
    train_restore_path none is_dir latest_checkpoint (some r) = some r := rfl

/-- Running the training loop over a stretch of micro-steps that contains no
application boundary only adds the gradients of the stretch into the buffer
and applies nothing. -/
theorem trainLoopAux_no_boundary (k : Nat) :
    ∀ (xs : List Int) (i : Nat) (acc : Int) (rest : List Int),
      1 ≤ i → i % k + xs.length < k →
      trainLoopAux k i acc (xs ++ rest) =
        trainLoopAux k (i + xs.length) (acc + xs.sum) rest := by
  intro xs
  induction xs with
  | nil =>
    intro i acc rest hi hlen
    simp
  | cons x xs ih =>
    intro i acc rest hi hlen
    simp only [List.length_cons] at hlen
    have hk2 : 2 ≤ k := by omega
    have hstep : (i + 1) % k = i % k + 1 := by
      rw [Nat.add_mod, Nat.mod_eq_of_lt (show 1 < k by omega), Nat.mod_eq_of_lt]
      omega
    have hnb : ¬ (i = 0 ∨ (i + 1) % k = 0) := by
      push_neg
      exact ⟨by omega, by omega⟩
    rw [List.cons_append]
    rw [show trainLoopAux k i acc (x :: (xs ++ rest)) =
        trainLoopAux k (i + 1) (acc + x) (xs ++ rest) from by
      simp [trainLoopAux, hnb]]
    rw [ih (i + 1) (acc + x) rest (by omega) (by omega)]
    congr 1
    · simp
      omega
    · simp
      ring

/-- Processing one gradient at an application boundary adds it to the buffer,
applies the buffer and continues with a zero buffer. -/
theorem trainLoopAux_boundary (k : Nat) (i : Nat) (acc g : Int) (rest : List Int)
    (hb : (i + 1) % k = 0) :
    trainLoopAux k i acc (g :: rest) =
      { acc := (trainLoopAux k (i + 1) 0 rest).acc,
        applied := (acc + g) :: (trainLoopAux k (i + 1) 0 rest).applied } := by
  simp [trainLoopAux, hb]

/-- Running the training loop through one complete accumulation window, that
is a stretch of gradients reaching exactly the next application boundary,
applies the initial buffer value plus the sum of the window and continues at
the next index with a zero buffer. -/
theorem trainLoopAux_window (k : Nat) (hk : 1 ≤ k) (w : List Int) (i : Nat)
    (acc : Int) (rest : List Int) (hi : 1 ≤ i) (hw : w.length = k - i % k) :
    trainLoopAux k i acc (w ++ rest) =
      { acc := (trainLoopAux k (i + w.length) 0 rest).acc,
        applied := (acc + w.sum) ::
          (trainLoopAux k (i + w.length) 0 rest).applied } := by
  have hmk : i % k < k := Nat.mod_lt _ (by omega)
  have hw1 : 1 ≤ w.length := by omega
  obtain ⟨xs, g, hxg⟩ : ∃ xs g, w = xs ++ [g] := by
    rcases List.eq_nil_or_concat w with h | ⟨xs, g, h⟩
    · subst h
      simp at hw1
    · exact ⟨xs, g, by simpa [List.concat_eq_append] using h⟩
  subst hxg
  have hxs : xs.length = k - i % k - 1 := by
    simp only [List.length_append, List.length_cons, List.length_nil] at hw
    omega
  rw [List.append_assoc]
  rw [trainLoopAux_no_boundary k xs i acc ([g] ++ rest) hi (by omega)]
  have hdm := Nat.div_add_mod i k
  have hib : (i + xs.length + 1) % k = 0 := by
    have h1 : i + xs.length + 1 = k * (i / k) + k := by omega
    have h2 : k * (i / k) + k = k * (i / k + 1) := by ring
    rw [h1, h2, Nat.mul_mod_right]
  rw [show ([g] ++ rest) = g :: rest from rfl]
  rw [trainLoopAux_boundary k (i + xs.length) (acc + xs.sum) g rest hib]
  have hlen : (xs ++ [g]).length = xs.length + 1 := by simp
  have hsum : (xs ++ [g]).sum = xs.sum + g := by simp
  rw [hlen, hsum, ← Nat.add_assoc, ← add_assoc]

/-- Running the training loop through a block of complete windows of size k,
starting just after an application boundary, applies exactly the window sums
in order. -/
theorem trainLoopAux_windows (k : Nat) (hk : 1 ≤ k) :
    ∀ (ws : List (List Int)) (i : Nat) (rest : List Int),
      1 ≤ i → i % k = 0 → (∀ w ∈ ws, w.length = k) →
      trainLoopAux k i 0 (ws.join ++ rest) =
        { acc := (trainLoopAux k (i + k * ws.length) 0 rest).acc,
          applied := ws.map List.sum ++
            (trainLoopAux k (i + k * ws.length) 0 rest).applied } := by
  intro ws
  induction ws with
  | nil =>
    intro i rest hi h0 hws
    simp
  | cons w ws ih =>
    intro i rest hi h0 hws
    have hwlen : w.length = k := hws w (List.mem_cons_self _ _)
    rw [show (w :: ws).join = w ++ ws.join from rfl, List.append_assoc]
    rw [trainLoopAux_window k hk w i 0 (ws.join ++ rest) hi (by omega)]
    rw [hwlen]
    rw [ih (i + k) rest (by omega) (by rw [Nat.add_mod_right]; exact h0)
      (fun w2 hw2 => hws w2 (List.mem_cons_of_mem _ hw2))]
    have hidx : i + k + k * ws.length = i + k * (w :: ws).length := by
      simp [Nat.mul_succ]
      ring
    rw [hidx]
    simp

/-- Running the training loop from just after an application boundary over a
stretch shorter than a window leaves its sum in the buffer and applies
nothing. -/
theorem trainLoopAux_tail (k : Nat) (hk : 1 ≤ k) (i : Nat) (tl : List Int)
    (hi : 1 ≤ i) (h0 : i % k = 0) (htl : tl.length < k) :
    trainLoopAux k i 0 tl = { acc := tl.sum, applied := [] } := by
  have h := trainLoopAux_no_boundary k tl i 0 [] hi (by omega)
  simpa using h

/-- The very first micro-step is always an application boundary: the loop on
a one-element gradient stream applies that gradient and leaves a zero
buffer. -/
theorem trainLoop_cons (k : Nat) (g0 : Int) (rest : List Int) :
    trainLoop k (g0 :: rest) =
      { acc := (trainLoopAux k 1 0 rest).acc,
        applied := g0 :: (trainLoopAux k 1 0 rest).applied } := by
  simp [trainLoop, trainLoopAux]

/-- C1: gradient accumulation correctness for accumulation_count = k. Split
any gradient stream at the application boundaries of the loop: the first
boundary is micro-step 0 itself, the next one is reached after a window w1 of
k - 1 % k further gradients (k - 1 when k ≥ 2, one when k = 1), and every
later boundary after a full window of exactly k gradients. Then the values
handed to optimizer.apply_gradients are precisely g0, the sum of w1 and the
sums of the full windows, in order; the accumulator buffer holds exactly the
sum of the trailing unfinished stretch, hence is exactly zero immediately
after each application (trailing stretch empty, conjuncts two and three); and
an application happens on the very first step, of the first gradient alone
(conjuncts three and four). -/
theorem gradient_accumulation (k : Nat) (hk : 1 ≤ k) (g0 : Int)
    (w1 : List Int) (ws : List (List Int)) (tl tl1 : List Int)
    (hw1 : w1.length = k - 1 % k) (hws : ∀ w ∈ ws, w.length = k)
    (htl : tl.length < k) (htl1 : tl1.length < k - 1 % k) :
    trainLoop k (g0 :: (w1 ++ ws.join ++ tl)) =
      { acc := tl.sum, applied := g0 :: w1.sum :: ws.map List.sum } ∧
    trainLoop k (g0 :: (w1 ++ ws.join)) =
      { acc := 0, applied := g0 :: w1.sum :: ws.map List.sum } ∧
    trainLoop k [g0] = { acc := 0, applied := [g0] } ∧
    trainLoop k (g0 :: tl1) = { acc := tl1.sum, applied := [g0] } := by
  have key : ∀ (t : List Int), t.length < k →
      trainLoop k (g0 :: (w1 ++ ws.join ++ t)) =
        { acc := t.sum, applied := g0 :: w1.sum :: ws.map List.sum } := by
    intro t ht
    rw [trainLoop_cons]
    rw [List.append_assoc]
    rw [trainLoopAux_window k hk w1 1 0 (ws.join ++ t) (by omega) (by omega)]
    have hi2 : (1 + w1.length) % k = 0 := by
      rcases Nat.lt_or_ge k 2 with hk1 | hk2
      · have hk1e : k = 1 := by omega
        subst hk1e
        simp [Nat.mod_one]
      · have h1 : 1 % k = 1 := Nat.mod_eq_of_lt (by omega)
        rw [hw1, h1, show 1 + (k - 1) = k from by omega, Nat.mod_self]
    rw [trainLoopAux_windows k hk ws (1 + w1.length) t (by omega) hi2 hws]
    rw [trainLoopAux_tail k hk (1 + w1.length + k * ws.length) t (by omega)
      (by rw [Nat.add_mul_mod_self_left]; exact hi2) ht]
    simp
  refine ⟨key tl htl, ?_, ?_, ?_⟩
  · have h := key [] (by simpa using hk)
    simpa using h
  · rw [trainLoop_cons]
    simp [trainLoopAux]
  · rw [trainLoop_cons]
    have hc : 1 % k + tl1.length < k := by
      rcases Nat.lt_or_ge k 2 with hk1 | hk2
      · have hk1e : k = 1 := by omega
        subst hk1e
        simpa [Nat.mod_one] using htl1
      · have h1 : 1 % k = 1 := Nat.mod_eq_of_lt (by omega)
        rw [h1]
        omega
    have h := trainLoopAux_no_boundary k tl1 1 0 [] (by omega) hc
    simp only [List.append_nil] at h
    rw [h]
    simp [trainLoopAux]

/-- Witness for C1 at k = 3 with gradient stream 1, 2, 4, 5, 6, 7, 9: the
applications are 1 (first step), 6 = 2 + 4 (window of k - 1 = 2 gradients)
and 18 = 5 + 6 + 7 (full window of 3), the residual buffer holds 9, and runs
cut exactly at an application boundary leave a zero buffer. -/
theorem gradient_accumulation_witness :
    trainLoop 3 [1, 2, 4, 5, 6, 7, 9] = { acc := 9, applied := [1, 6, 18] } ∧
    trainLoop 3 [1, 2, 4, 5, 6, 7] = { acc := 0, applied := [1, 6, 18] } ∧
    trainLoop 3 [1] = { acc := 0, applied := [1] } ∧
    trainLoop 3 [1, 2] = { acc := 2, applied := [1] } := by
  have h := gradient_accumulation 3 (by decide) 1 [2, 4] [[5, 6, 7]] [9] [2]
    (by decide) (by decide) (by decide) (by decide)
  simpa using h

/-- Extraction from the PendingBuffer fails exactly when the index is
absent. -/
theorem extractKey_none_iff {α : Type} (k : Nat) :
    ∀ (l : List (Nat × α)), extractKey k l = none ↔ k ∉ l.map Prod.fst := by
  intro l
  induction l with
  | nil => simp [extractKey]
  | cons p rest ih =>
    simp only [List.map_cons, List.mem_cons]
    by_cases hp : p.1 = k
    · simp [extractKey, hp]
    · cases hrec : extractKey k rest with
      | none =>
        simp only [extractKey, if_neg hp, hrec]
        constructor
        · intro _
          rintro (h | h)
          · exact hp h.symm
          · exact (ih.mp hrec) h
        · intro _
          trivial
      | some pr =>
        obtain ⟨a, rest2⟩ := pr
        simp only [extractKey, if_neg hp, hrec]
        constructor
        · intro h
          exact absurd h (by simp)
        · intro h
          exfalso
          have hne : extractKey k rest ≠ none := by simp [hrec]
          have hmem : k ∈ rest.map Prod.fst := by
            by_contra hc
            exact hne (ih.mpr hc)
          exact h (Or.inr hmem)

/-- Successful extraction from the PendingBuffer splits it, up to
permutation, into the extracted entry and the remaining entries. -/
theorem extractKey_some_perm {α : Type} (k : Nat) :
    ∀ (l : List (Nat × α)) (a : α) (rest : List (Nat × α)),
      extractKey k l = some (a, rest) → l.Perm ((k, a) :: rest) := by
  intro l
  induction l with
  | nil =>
    intro a rest h
    simp [extractKey] at h
  | cons p tail ih =>
    intro a rest h
    by_cases hp : p.1 = k
    · simp only [extractKey, if_pos hp, Option.some.injEq, Prod.mk.injEq] at h
      obtain ⟨ha, hr⟩ := h
      have hpe : p = (k, a) := by
        cases p
        simp_all
      subst hpe
      subst hr
      exact List.Perm.refl _
    · cases hrec : extractKey k tail with
      | none =>
        simp [extractKey, if_neg hp, hrec] at h
      | some pr =>
        obtain ⟨a2, rest2⟩ := pr
        simp only [extractKey, if_neg hp, hrec, Option.some.injEq, Prod.mk.injEq] at h
        obtain ⟨ha, hr⟩ := h
        subst hr
        rw [← ha]
        exact ((ih a2 rest2 hrec).cons p).trans (List.Perm.swap (k, a2) p rest2)

/-- Correctness of the drain phase: starting from a state whose sink is an
exact initial segment and whose buffered indices are distinct and at least
next_expected, draining with enough fuel preserves the released-or-buffered
items up to permutation, keeps the sink an exact initial segment, and leaves
a buffer whose indices are distinct and strictly above the new
next_expected. -/
theorem drain_spec {α : Type} :
    ∀ (fuel : Nat) (st : OrderRestorer α),
      st.buffer.length ≤ fuel →
      (st.buffer.map Prod.fst).Nodup →
      (∀ p ∈ st.buffer, st.next_expected ≤ p.1) →
      st.sink.map Prod.fst = List.range st.next_expected →
      ((drain fuel st).sink.map Prod.fst = List.range (drain fuel st).next_expected ∧
       ((drain fuel st).sink ++ (drain fuel st).buffer).Perm (st.sink ++ st.buffer) ∧
       (∀ p ∈ (drain fuel st).buffer, (drain fuel st).next_expected < p.1) ∧
       ((drain fuel st).buffer.map Prod.fst).Nodup) := by
  intro fuel
  induction fuel with
  | zero =>
    intro st hlen hnd hge hsink
    have hbuf : st.buffer = [] := List.length_eq_zero.mp (by omega)
    simp only [drain]
    refine ⟨hsink, List.Perm.refl _, ?_, hnd⟩
    intro p hp
    rw [hbuf] at hp
    simp at hp
  | succ fuel ih =>
    intro st hlen hnd hge hsink
    cases hek : extractKey st.next_expected st.buffer with
    | none =>
      simp only [drain, hek]
      refine ⟨hsink, List.Perm.refl _, ?_, hnd⟩
      intro p hp
      have h1 := hge p hp
      have h2 : st.next_expected ∉ st.buffer.map Prod.fst :=
        (extractKey_none_iff _ _).mp hek
      have h3 : p.1 ≠ st.next_expected := by
        intro hc
        exact h2 (hc ▸ List.mem_map_of_mem Prod.fst hp)
      omega
    | some pr =>
      obtain ⟨a, rest⟩ := pr
      simp only [drain, hek]
      have hperm : st.buffer.Perm ((st.next_expected, a) :: rest) :=
        extractKey_some_perm _ _ a rest hek
      have hpermfst : (st.buffer.map Prod.fst).Perm
          (st.next_expected :: rest.map Prod.fst) := by
        simpa using hperm.map Prod.fst
      have hnd2 : (st.next_expected :: rest.map Prod.fst).Nodup :=
        hpermfst.nodup_iff.mp hnd
      have hnotmem : st.next_expected ∉ rest.map Prod.fst :=
        (List.nodup_cons.mp hnd2).1
      have hndrest : (rest.map Prod.fst).Nodup := (List.nodup_cons.mp hnd2).2
      have hlen2 : rest.length ≤ fuel := by
        have := hperm.length_eq
        simp at this
        omega
      have hge2 : ∀ p ∈ rest, st.next_expected + 1 ≤ p.1 := by
        intro p hp
        have hmem : p ∈ st.buffer := hperm.mem_iff.mpr (List.mem_cons_of_mem _ hp)
        have h1 := hge p hmem
        have h2 : p.1 ≠ st.next_expected := by
          intro hc
          exact hnotmem (hc ▸ List.mem_map_of_mem Prod.fst hp)
        omega
      have hsink2 : (st.sink ++ [(st.next_expected, a)]).map Prod.fst =
          List.range (st.next_expected + 1) := by
        rw [List.map_append, hsink, List.range_succ]
        rfl
      have hIH := ih
        { next_expected := st.next_expected + 1,
          buffer := rest,
          sink := st.sink ++ [(st.next_expected, a)] }
        hlen2 hndrest hge2 hsink2
      refine ⟨hIH.1, ?_, hIH.2.2.1, hIH.2.2.2⟩
      refine hIH.2.1.trans ?_
      rw [List.append_assoc]
      exact hperm.symm.append_left st.sink

/-- One push of a fresh index preserves the restorer invariant and never
raises a DuplicateIndexError. -/
theorem push_inv {α : Type} (processed : List (Nat × α)) (st : OrderRestorer α)
    (item : Nat × α) (hnd : (processed.map Prod.fst).Nodup)
    (hnew : item.1 ∉ processed.map Prod.fst)
    (hInv : RestorerInv processed st) :
    ∃ st2, st.push item = some st2 ∧ RestorerInv (processed ++ [item]) st2 := by
  obtain ⟨hsink, hperm, hbuf⟩ := hInv
  have hbufnd : (st.buffer.map Prod.fst).Nodup := by
    have h1 : ((st.sink ++ st.buffer).map Prod.fst).Perm (processed.map Prod.fst) :=
      hperm.map Prod.fst
    have h2 : ((st.sink ++ st.buffer).map Prod.fst).Nodup := h1.nodup_iff.mpr hnd
    rw [List.map_append] at h2
    exact (List.nodup_append.mp h2).2.1
  rcases lt_trichotomy item.1 st.next_expected with hlt | heq | hgt
  · exfalso
    apply hnew
    have h1 : item.1 ∈ st.sink.map Prod.fst := by
      rw [hsink]
      exact List.mem_range.mpr hlt
    obtain ⟨p, hp, hp1⟩ := List.mem_map.mp h1
    have h2 : p ∈ processed := hperm.mem_iff.mp (List.mem_append_left _ hp)
    exact hp1 ▸ List.mem_map_of_mem Prod.fst h2
  · have hds := drain_spec st.buffer.length
      { next_expected := st.next_expected + 1,
        buffer := st.buffer,
        sink := st.sink ++ [item] }
      (le_refl _) hbufnd
      (fun p hp => by
        have h1 := hbuf p hp
        show st.next_expected + 1 ≤ p.1
        omega)
      (by rw [List.map_append, hsink, ← heq, List.range_succ]; rfl)
    refine ⟨drain st.buffer.length
      { next_expected := st.next_expected + 1,
        buffer := st.buffer,
        sink := st.sink ++ [item] }, ?_, ?_⟩
    · simp only [OrderRestorer.push, if_neg (by omega : ¬ item.1 < st.next_expected),
        if_pos heq]
    · unfold RestorerInv
      refine ⟨hds.1, ?_, hds.2.2.1⟩
      refine hds.2.1.trans ?_
      rw [List.append_assoc]
      refine (List.perm_append_comm.append_left st.sink).trans ?_
      rw [← List.append_assoc]
      exact hperm.append_right [item]
  · have hnotbuf : item.1 ∉ st.buffer.map Prod.fst := by
      intro hc
      apply hnew
      obtain ⟨p, hp, hp1⟩ := List.mem_map.mp hc
      have h2 : p ∈ processed := hperm.mem_iff.mp (List.mem_append_right _ hp)
      exact hp1 ▸ List.mem_map_of_mem Prod.fst h2
    refine ⟨{ st with buffer := st.buffer ++ [item] }, ?_, ?_⟩
    · simp only [OrderRestorer.push, if_neg (by omega : ¬ item.1 < st.next_expected),
        if_neg (by omega : ¬ item.1 = st.next_expected), if_neg hnotbuf]
    · unfold RestorerInv
      refine ⟨hsink, ?_, ?_⟩
      · rw [← List.append_assoc]
        exact hperm.append_right [item]
      · intro p hp
        rcases List.mem_append.mp hp with h | h
        · exact hbuf p h
        · rw [List.mem_singleton.mp h]
          exact hgt

/-- Pushing a stream of items with pairwise distinct indices through the
restorer, starting from any state satisfying the invariant, succeeds and
re-establishes the invariant for the whole processed stream. -/
theorem pushAll_inv {α : Type} :
    ∀ (items processed : List (Nat × α)) (st : OrderRestorer α),
      ((processed ++ items).map Prod.fst).Nodup →
      RestorerInv processed st →
      ∃ st2, List.foldlM OrderRestorer.push st items = some st2 ∧
        RestorerInv (processed ++ items) st2 := by
  intro items
  induction items with
  | nil =>
    intro processed st hnd hInv
    exact ⟨st, rfl, by simpa using hInv⟩
  | cons it its ih =>
    intro processed st hnd hInv
    have hnd2 : (processed.map Prod.fst).Nodup := by
      rw [List.map_append] at hnd
      exact (List.nodup_append.mp hnd).1
    have hnew : it.1 ∉ processed.map Prod.fst := by
      rw [List.map_append] at hnd
      have hdisj := (List.nodup_append.mp hnd).2.2
      intro hc
      exact hdisj hc (by simp)
    obtain ⟨st1, hpush, hInv1⟩ := push_inv processed st it hnd2 hnew hInv
    obtain ⟨st2, hrec, hInv2⟩ := ih (processed ++ [it]) st1
      (by simpa using hnd) hInv1
    refine ⟨st2, ?_, by simpa using hInv2⟩
    rw [List.foldlM_cons, hpush]
    simpa using hrec

/-- C3: OrderRestorer completeness (spec-modelled, the class lives in
opennmt/utils/misc.py, outside src/). For every n and every stream of items
whose indices form a permutation of 0..n-1, pushed one at a time in that
arbitrary order, no DuplicateIndexError occurs, the sink receives a stream
whose indices are exactly 0, 1, ..., n-1 in this order with no gaps and no
repeats, the released items are exactly the pushed items, and the
PendingBuffer ends empty with next_expected = n. -/
theorem order_restorer_completeness {α : Type} (n : Nat) (items : List (Nat × α))
    (hperm : (items.map Prod.fst).Perm (List.range n)) :
    ∃ st, pushAll items = some st ∧
      st.sink.map Prod.fst = List.range n ∧
      st.sink.Perm items ∧
      st.buffer = [] ∧
      st.next_expected = n := by
  have hnd : (items.map Prod.fst).Nodup := hperm.nodup_iff.mpr (List.nodup_range n)
  have hInv0 : RestorerInv ([] : List (Nat × α))
      { next_expected := 0, buffer := [], sink := [] } := by
    unfold RestorerInv
    refine ⟨by simp, by simp, by simp⟩
  obtain ⟨st, hfold, hInv⟩ := pushAll_inv items [] _ (by simpa using hnd) hInv0
  rw [List.nil_append] at hInv
  obtain ⟨hsink, hp, hbuf⟩ := hInv
  have hidx : (st.sink.map Prod.fst ++ st.buffer.map Prod.fst).Perm (List.range n) := by
    have h1 := hp.map Prod.fst
    rw [List.map_append] at h1
    exact h1.trans hperm
  have hne : st.next_expected = n := by
    rcases Nat.lt_trichotomy st.next_expected n with hlt | hE | hgt
    · exfalso
      have h1 : st.next_expected ∈ List.range n := List.mem_range.mpr hlt
      have h2 : st.next_expected ∈ st.sink.map Prod.fst ++ st.buffer.map Prod.fst :=
        hidx.mem_iff.mpr h1
      rcases List.mem_append.mp h2 with h3 | h3
      · rw [hsink] at h3
        have := List.mem_range.mp h3
        omega
      · obtain ⟨p, hp2, hp3⟩ := List.mem_map.mp h3
        have := hbuf p hp2
        omega
    · exact hE
    · exfalso
      have h1 : st.next_expected - 1 ∈ st.sink.map Prod.fst := by
        rw [hsink]
        exact List.mem_range.mpr (by omega)
      have h2 : st.next_expected - 1 ∈ List.range n :=
        hidx.mem_iff.mp (List.mem_append_left _ h1)
      have := List.mem_range.mp h2
      omega
  have hempty : st.buffer = [] := by
    have h1 := hidx.length_eq
    simp only [List.length_append, List.length_map, List.length_range] at h1
    have h3 := congrArg List.length hsink
    simp only [List.length_map, List.length_range] at h3
    exact List.length_eq_zero.mp (by omega)
  refine ⟨st, hfold, by rw [hsink, hne], ?_, hempty, hne⟩
  have h2 := hp
  rw [hempty, List.append_nil] at h2
  exact h2

/-- Witness for C3: pushing the index order 2, 0, 1 with payloads releases the
items in index order 0, 1, 2. -/
theorem order_restorer_completeness_witness :
    ∃ st, pushAll [(2, (22 : Int)), (0, 20), (1, 21)] = some st ∧
      st.sink.map Prod.fst = List.range 3 ∧
      st.sink.Perm [(2, (22 : Int)), (0, 20), (1, 21)] ∧
      st.buffer = [] ∧
      st.next_expected = 3 :=
  order_restorer_completeness 3 [(2, (22 : Int)), (0, 20), (1, 21)] (by decide)

/-- C7 counterexample: cleanup is not unconditional. A search whose first
trial judgement raises (for example a failed subprocess launch) propagates
the exception and ends with no scratch file removed, although the transient
configuration file was created; and on a search that completes, a failing
deletion of the configuration file propagates as an error instead of being
swallowed. -/
theorem autotune_scratch_cleanup_fails :
    autoTuneRun (fun _ => Except.error ()) (fun _ => true) true 256 16 1024 16384
      = (Except.error (), []) ∧
    autoTuneRun (fun _ => Except.ok true) (fun _ => false) false 256 16 1024 16384
      = (Except.error (), []) := ⟨rfl, rfl⟩

/-- C7 amended: on every run of the search whose loop completes normally (no
trial raises and the fuel covers the iterations) and whose deletions succeed,
the transient configuration file, and the session configuration file when it
was created, are removed exactly once at the end, and the search result is
the value the pure loop returns. Cleanup does not run when the loop is left
by an exception, and a failed deletion escalates (see the counterexample). -/
theorem autotune_scratch_cleanup (trial : Int → Bool) (has_session_config : Bool)
    (p : Int) :
    ∀ (fuel : Nat) (lo hi v : Int) (n : Nat),
      autoTuneLoop trial p fuel lo hi = some (v, n) →
      autoTuneRun (fun b => Except.ok (trial b)) (fun _ => true)
          has_session_config p fuel lo hi =
        (Except.ok v,
         if has_session_config then [ScratchFile.config, ScratchFile.sessionConfig]
         else [ScratchFile.config]) := by
  intro fuel
  induction fuel with
  | zero =>
    intro lo hi v n h
    by_cases hg : p < hi - lo
    · simp [autoTuneLoop, hg] at h
    · simp [autoTuneLoop, hg] at h
      obtain ⟨hv, hn⟩ := h
      subst hv
      cases has_session_config <;> simp [autoTuneRun, hg, tuneCleanup]
  | succ fuel ih =>
    intro lo hi v n h
    by_cases hg : p < hi - lo
    · cases htr : trial (Int.fdiv (hi + lo) 2)
      · simp only [autoTuneLoop, hg, if_true, htr, Bool.false_eq_true, if_false] at h
        cases hrec : autoTuneLoop trial p fuel lo (Int.fdiv (hi + lo) 2 - 1) with
        | none => rw [hrec] at h; simp at h
        | some pr =>
          rw [hrec] at h
          have hv : pr.1 = v := by
            have := congrArg Prod.fst (Option.some.inj h)
            simpa using this
          simp only [autoTuneRun, hg, if_true, htr]
          rw [← hv]
          exact ih lo (Int.fdiv (hi + lo) 2 - 1) pr.1 pr.2 (by rw [hrec])
      · simp only [autoTuneLoop, hg, if_true, htr] at h
        cases hrec : autoTuneLoop trial p fuel (Int.fdiv (hi + lo) 2) hi with
        | none => rw [hrec] at h; simp at h
        | some pr =>
          rw [hrec] at h
          have hv : pr.1 = v := by
            have := congrArg Prod.fst (Option.some.inj h)
            simpa using this
          simp only [autoTuneRun, hg, if_true, htr]
          rw [← hv]
          exact ih (Int.fdiv (hi + lo) 2) hi pr.1 pr.2 (by rw [hrec])
    · simp [autoTuneLoop, hg] at h
      obtain ⟨hv, hn⟩ := h
      subst hv
      cases has_session_config <;> simp [autoTuneRun, hg, tuneCleanup]

/-- Witness for the amended C7 on the convergence scenario with both scratch
files created and all deletions succeeding. -/
theorem autotune_scratch_cleanup_witness :
    autoTuneRun (fun b => Except.ok (decide (b ≤ 9000))) (fun _ => true) true
        256 16 1024 16384
      = (Except.ok 8943, [ScratchFile.config, ScratchFile.sessionConfig]) :=
  autotune_scratch_cleanup (fun b => decide (b ≤ 9000)) true 256 16 1024 16384
    8943 6 (by decide)

/-- C8 counterexample: the output stream is not closed on error paths. With an
output file configured (so a file stream was opened for writing) and a first
batch whose processing raises, the call ends with the error and the stream
was never closed. -/
theorem output_stream_closure_fails :
    (runWithOutputStream true (fun _ : Nat => Except.error ()) [0]).2 = false ∧
    runWithOutputStream true (fun _ : Nat => Except.error ()) [0]
      = (Except.error (), false) := ⟨rfl, rfl⟩

/-- C8 amended: in Runner.infer and Runner.score, when an output file stream
was opened for writing, it is closed by the end of the call exactly when
every batch of the loop processes without raising; on a run where some batch
raises, the stream is left open. -/
theorem output_stream_closure (β : Type) (process : β → Except Unit Unit)
    (batches : List β) :
    (runWithOutputStream true process batches).2 = true ↔
      ∀ b ∈ batches, process b = Except.ok () := by
  induction batches with
  | nil => simp [runWithOutputStream, streamLoopBody]
  | cons b rest ih =>
    cases hb : process b with
    | error e => simp [runWithOutputStream, streamLoopBody, hb]
    | ok u =>
      have hL : runWithOutputStream true process (b :: rest) =
          runWithOutputStream true process rest := by
        simp [runWithOutputStream, streamLoopBody, hb]
      rw [hL, ih]
      simp [hb]
